import Mathlib

/-!
Verification of the BHAVNA emotion-analysis service.

The development shallowly embeds the repository's three Python modules:

* `backend/model.py` — the emotion scorer (`EmotionAnalyzer._calculate_emotion_scores`),
  the confidence estimator (`EmotionAnalyzer._calculate_confidence`) and the
  argmax used by `EmotionAnalyzer.analyze`.  Machine floats are modelled by
  exact rationals `ℚ`.
* `backend/utils.py` — the text normalizer `preprocess_text`, with strings
  modelled as `List Char` and the three regex substitutions modelled by
  structurally recursive scans with the same leftmost-match semantics.
* `backend/app.py` — the validation sequence of the `POST /api/analyze`
  handler `analyze_emotion`.
-/

namespace Bhavna

/-! ### Sentiment signals and emotion scores (`backend/model.py`) -/

/-- The two third-party sentiment outputs consumed by
`_calculate_emotion_scores`: VADER's `compound`, `pos`, `neg`, `neu`
and TextBlob's `polarity`, `subjectivity`. -/
structure SentimentSignals where
  compound : ℚ
  pos : ℚ
  neg : ℚ
  neu : ℚ
  polarity : ℚ
  subjectivity : ℚ
  deriving DecidableEq

/-- The documented ranges of the sentiment signals: `compound` and
`polarity` lie in `[-1, 1]`, the remaining fields in `[0, 1]`. -/
def ValidSignals (s : SentimentSignals) : Prop :=
  -1 ≤ s.compound ∧ s.compound ≤ 1 ∧
  0 ≤ s.pos ∧ s.pos ≤ 1 ∧
  0 ≤ s.neg ∧ s.neg ≤ 1 ∧
  0 ≤ s.neu ∧ s.neu ≤ 1 ∧
  -1 ≤ s.polarity ∧ s.polarity ≤ 1 ∧
  0 ≤ s.subjectivity ∧ s.subjectivity ≤ 1

instance (s : SentimentSignals) : Decidable (ValidSignals s) := by
  unfold ValidSignals; infer_instance

/-- The five-entry score record built by `_calculate_emotion_scores`,
in the dict insertion order of `model.py` lines 77–83. -/
structure EmotionScores where
  happy : ℚ
  sad : ℚ
  angry : ℚ
  neutral : ℚ
  surprise : ℚ
  deriving DecidableEq

/-- The raw (pre-normalization) emotion scores, `model.py` lines 85–101. -/
def rawScores (s : SentimentSignals) : EmotionScores where
  happy := if 0.05 < s.compound then min 1 (s.pos * 0.7 + (s.polarity + 1) / 2 * 0.3) else 0
  sad := if s.compound < -0.05 then min 1 (s.neg * 0.6 + (1 - (s.polarity + 1) / 2) * 0.4) else 0
  angry := if s.compound < -0.3 then min 1 (s.neg * 0.8 + s.subjectivity * 0.2) else 0
  neutral := min 1 (s.neu * 0.7 + (1 - s.subjectivity) * 0.3)
  surprise := min 1 (s.subjectivity * 0.5)

/-- `sum(scores.values())`, in dict insertion order. -/
def totalScore (e : EmotionScores) : ℚ :=
  e.happy + e.sad + e.angry + e.neutral + e.surprise

/-- `_calculate_emotion_scores`, `model.py` lines 85–111: raw scores, then
normalization (divide by the sum if it is positive, otherwise force
`neutral := 1.0` leaving the other entries as computed). -/
def calculate_emotion_scores (s : SentimentSignals) : EmotionScores :=
  let r := rawScores s
  let total := totalScore r
  if 0 < total then
    ⟨r.happy / total, r.sad / total, r.angry / total, r.neutral / total, r.surprise / total⟩
  else
    { r with neutral := 1 }

/-- `emotion_scores.values()` in dict insertion order. -/
def scoresList (e : EmotionScores) : List ℚ :=
  [e.happy, e.sad, e.angry, e.neutral, e.surprise]

/-- Maximum of a list of rationals (`max(...)` in Python; `0` on the
empty list, mirroring the defensive `else 0` of `_calculate_confidence`). -/
def listMax : List ℚ → ℚ
  | [] => 0
  | x :: xs => xs.foldl max x

/-- `max_score = max(emotion_scores.values())`, `model.py` line 124. -/
def maxScore (e : EmotionScores) : ℚ := listMax (scoresList e)

/-- `second_max = sorted(values, reverse=True)[1]`, `model.py` lines 127–128:
the largest value of the multiset with one occurrence of the maximum
removed. -/
def secondMax (e : EmotionScores) : ℚ :=
  listMax ((scoresList e).erase (maxScore e))

/-- `_calculate_confidence`, `model.py` lines 113–137. -/
def calculate_confidence (e : EmotionScores) : ℚ :=
  let conf := maxScore e - secondMax e
  if 0.7 < maxScore e then min 1 (conf + 0.2) else conf

/-- The five emotion categories, in dict insertion order. -/
inductive Emotion where
  | happy | sad | angry | neutral | surprise
  deriving DecidableEq, Repr

/-- Score of one emotion inside an `EmotionScores` record
(`emotion_scores.get` in `analyze`). -/
def emotionScore (e : EmotionScores) : Emotion → ℚ
  | .happy => e.happy
  | .sad => e.sad
  | .angry => e.angry
  | .neutral => e.neutral
  | .surprise => e.surprise

/-- Declaration order of the five categories (dict insertion order of
`model.py` lines 77–83). -/
def emotionOrder : Emotion → Nat
  | .happy => 0
  | .sad => 1
  | .angry => 2
  | .neutral => 3
  | .surprise => 4

/-- The dict iteration order seen by `max(emotion_scores, key=...)`. -/
def emotionList : List Emotion :=
  [.happy, .sad, .angry, .neutral, .surprise]

/-- `primary_emotion = max(emotion_scores, key=emotion_scores.get)`,
`model.py` line 40.  Python's `max` keeps the current best unless a later
element is strictly greater, so ties go to the earliest key. -/
def primary_emotion (e : EmotionScores) : Emotion :=
  emotionList.foldl (fun best x => if emotionScore e best < emotionScore e x then x else best)
    Emotion.happy

/-! ### Text normalizer (`backend/utils.py`, `preprocess_text`)

Strings are modelled as `List Char`.  The three regex substitutions of
`preprocess_text` are modelled by left-to-right scans with the exact
leftmost-match semantics of `re.sub`:

* `http\S+|www\S+|https\S+` matches, at a position, the literal `http`
  (or `www`) followed by at least one non-whitespace character; the greedy
  `\S+` always extends the match to the end of the current non-whitespace
  run.  (The `https\S+` alternative is subsumed by `http\S+`.)
* `\S+@\S+` matches at a position exactly when the non-whitespace run
  starting there contains an `@` with at least one run character on each
  side; greediness again extends the match to the end of the run.
* `\s+` → `' '` replaces each maximal whitespace run by a single space.
-/

/-- The whitespace class `\s` (and `str.strip`), restricted to the ASCII
range: space, tab, newline, carriage return, vertical tab, form feed. -/
def isSpace (c : Char) : Bool :=
  c.toNat = 32 || c.toNat = 9 || c.toNat = 10 || c.toNat = 13 || c.toNat = 11 || c.toNat = 12

/-- `str.lower`, restricted to the ASCII range: map `A`–`Z` to `a`–`z`. -/
def lowerChar (c : Char) : Char :=
  if 65 ≤ c.toNat ∧ c.toNat ≤ 90 then Char.ofNat (c.toNat + 32) else c

/-- Does the second list start with the first one? -/
def startsWith : List Char → List Char → Bool
  | [], _ => true
  | _ :: _, [] => false
  | p :: ps, c :: cs => p == c && startsWith ps cs

/-- Length of the maximal non-whitespace run at the head of the list
(the extent available to a greedy `\S+` anchored here). -/
def runLen (l : List Char) : Nat :=
  (l.takeWhile fun c => !isSpace c).length

/-- The literal characters of the regex alternative `http\S+`. -/
def httpL : List Char := ['h', 't', 't', 'p']

/-- The literal characters of the regex alternative `www\S+`. -/
def wwwL : List Char := ['w', 'w', 'w']

/-- Does `http\S+|www\S+|https\S+` match at the head of `l`?  The literal
prefix must be present and the non-whitespace run must strictly exceed it,
feeding the mandatory `\S+`. -/
def urlMatchAt (l : List Char) : Bool :=
  (startsWith httpL l && decide (5 ≤ runLen l)) ||
    (startsWith wwwL l && decide (4 ≤ runLen l))

/-- Does `\S+@\S+` match at the head of `l`?  Exactly when the
non-whitespace run at the head contains an interior `@` (one run character
before it and one after it). -/
def emailMatchAt (l : List Char) : Bool :=
  (((l.takeWhile fun c => !isSpace c).drop 1).dropLast).contains '@'

/-- The generic scan of `re.sub(pattern, '', text)` for a pattern whose
matches always extend to the end of the current non-whitespace run.  The
flag records whether the scan is inside a match being deleted; the flag is
cleared at the next whitespace character (the end of the run). -/
def subGo (matchAt : List Char → Bool) : Bool → List Char → List Char
  | _, [] => []
  | inMatch, c :: cs =>
    if isSpace c then c :: subGo matchAt false cs
    else if inMatch then subGo matchAt true cs
    else if matchAt (c :: cs) then subGo matchAt true cs
    else c :: subGo matchAt false cs

/-- The scan of `re.sub(r'http\S+|www\S+|https\S+', '', text)`. -/
def urlGo (b : Bool) (l : List Char) : List Char := subGo urlMatchAt b l

/-- The scan of `re.sub(r'\S+@\S+', '', text)`. -/
def emailGo (b : Bool) (l : List Char) : List Char := subGo emailMatchAt b l

/-- The scan of `re.sub(r'\s+', ' ', text)`: the flag records whether the
scan is inside a whitespace run whose single replacement space was already
emitted. -/
def sqGo : Bool → List Char → List Char
  | _, [] => []
  | inSpace, c :: cs =>
    if isSpace c then
      if inSpace then sqGo true cs else ' ' :: sqGo true cs
    else c :: sqGo false cs

/-- `str.strip()`: drop leading and trailing whitespace. -/
def stripChars (l : List Char) : List Char :=
  (((l.dropWhile isSpace).reverse).dropWhile isSpace).reverse

/-- `preprocess_text`, `utils.py` lines 4–29: lowercase, remove URLs,
remove email addresses, collapse whitespace and strip. -/
def preprocess_text (l : List Char) : List Char :=
  stripChars (sqGo false (emailGo false (urlGo false (l.map lowerChar))))

/-! Auxiliary, proof-side descriptions of the scans. -/

/-- The maximal non-whitespace runs of a list, in order (proof-side). -/
def tokens : List Char → List (List Char)
  | [] => []
  | c :: cs =>
    if isSpace c then tokens cs
    else ((c :: cs).takeWhile fun x => !isSpace x) :: tokens (cs.dropWhile fun x => !isSpace x)
  termination_by l => l.length
  decreasing_by
    · simp
    · have := (List.dropWhile_suffix (l := cs) fun x => !isSpace x).length_le
      simp only [List.length_cons]
      omega

/-- Join tokens with single spaces (proof-side). -/
def joinToks : List (List Char) → List Char
  | [] => []
  | [t] => t
  | t :: t' :: ts => t ++ ' ' :: joinToks (t' :: ts)

/-- The URL trigger evaluated on a bare run `u` (no trailing context). -/
def tokTrigU (u : List Char) : Bool :=
  (startsWith httpL u && decide (5 ≤ u.length)) ||
    (startsWith wwwL u && decide (4 ≤ u.length))

/-- The email trigger evaluated on a bare run `u` (no trailing context). -/
def tokTrigE (u : List Char) : Bool :=
  ((u.drop 1).dropLast).contains '@'

/-- Truncate a run at the first position where the trigger fires
(proof-side description of what `subGo` does to one run). -/
def cutRun (trig : List Char → Bool) : List Char → List Char
  | [] => []
  | c :: cs => if trig (c :: cs) then [] else c :: cutRun trig cs

/-- Every character of the list is non-whitespace (proof-side). -/
def NonSp (u : List Char) : Prop := ∀ c ∈ u, isSpace c = false

/-- The list is empty or begins with a whitespace character (proof-side):
the shape of the context that follows a complete non-whitespace run. -/
def SpHead (v : List Char) : Prop :=
  v = [] ∨ ∃ d v', v = d :: v' ∧ isSpace d = true

/-- Does `p` occur as a contiguous substring of `l`? -/
def hasSub (p l : List Char) : Bool :=
  (List.range (l.length + 1)).any fun n => startsWith p (l.drop n)

/-! ### Service boundary (`backend/app.py`, `analyze_emotion`) -/

/-- Outcome of the validation sequence of `analyze_emotion`,
`app.py` lines 44–61. -/
inductive ValidationOutcome where
  | missingField | emptyText | tooLong | accepted
  deriving DecidableEq, Repr

/-- The validation sequence of `analyze_emotion`: the request body is
`none` when no JSON object is supplied (`not data`), `some none` when the
`text` key is absent, and `some (some text)` otherwise.  The checks run in
source order: missing field, then emptiness after `strip`, then raw
length. -/
def validate_request (body : Option (Option (List Char))) : ValidationOutcome :=
  match body with
  | none => .missingField
  | some none => .missingField
  | some (some text) =>
    if text.isEmpty || (stripChars text).isEmpty then .emptyText
    else if 5000 < text.length then .tooLong
    else .accepted

/-- HTTP status paired with each validation outcome. -/
def statusOf : ValidationOutcome → Nat
  | .missingField => 400
  | .emptyText => 400
  | .tooLong => 400
  | .accepted => 200

/-- The `error` string returned for each rejecting outcome. -/
def errorOf : ValidationOutcome → List Char
  | .missingField => "Missing text field in request".toList
  | .emptyText => "Text cannot be empty".toList
  | .tooLong => "Text too long. Maximum 5000 characters.".toList
  | .accepted => []

/-! ### Helper lemmas: maxima of lists of rationals -/

lemma le_foldl_max (a : ℚ) (l : List ℚ) : a ≤ l.foldl max a := by
  induction l generalizing a with
  | nil => exact le_refl a
  | cons b l ih => exact le_trans (le_max_left a b) (ih (max a b))

lemma foldl_max_le_of_mem {v : ℚ} {l : List ℚ} (a : ℚ) (h : v ∈ l) : v ≤ l.foldl max a := by
  induction l generalizing a with
  | nil => cases h
  | cons b l ih =>
    rcases List.mem_cons.1 h with rfl | h
    · exact le_trans (le_max_right a v) (le_foldl_max _ _)
    · exact ih _ h

lemma foldl_max_mem (a : ℚ) (l : List ℚ) : l.foldl max a = a ∨ l.foldl max a ∈ l := by
  induction l generalizing a with
  | nil => exact Or.inl rfl
  | cons b l ih =>
    rcases ih (max a b) with h | h
    · rcases le_total a b with hab | hab
      · right; rw [List.foldl_cons, h, max_eq_right hab]; exact List.mem_cons_self _ _
      · left; rw [List.foldl_cons, h, max_eq_left hab]
    · right; right; exact h

lemma listMax_mem {l : List ℚ} (h : l ≠ []) : listMax l ∈ l := by
  cases l with
  | nil => exact absurd rfl h
  | cons x xs =>
    rcases foldl_max_mem x xs with h' | h'
    · rw [listMax, h']; exact List.mem_cons_self _ _
    · exact List.mem_cons_of_mem _ h'

lemma le_listMax {v : ℚ} {l : List ℚ} (h : v ∈ l) : v ≤ listMax l := by
  cases l with
  | nil => cases h
  | cons x xs =>
    rcases List.mem_cons.1 h with rfl | h'
    · exact le_foldl_max _ _
    · exact foldl_max_le_of_mem _ h'

/-! ### Helper lemmas: the raw scores under valid signals -/

lemma rawScores_nonneg (s : SentimentSignals) (h : ValidSignals s) :
    0 ≤ (rawScores s).happy ∧ 0 ≤ (rawScores s).sad ∧ 0 ≤ (rawScores s).angry ∧
      0 ≤ (rawScores s).neutral ∧ 0 ≤ (rawScores s).surprise := by
  obtain ⟨h1, h2, h3, h4, h5, h6, h7, h8, h9, h10, h11, h12⟩ := h
  simp only [rawScores]
  refine ⟨?_, ?_, ?_, ?_, ?_⟩ <;> (try split_ifs) <;>
    first
      | rfl
      | (rw [le_min_iff]; constructor <;> linarith)

/-! ### The numeric claims -/

/-- **C1.** For every valid `SentimentSignals`, the raw emotion scores
computed before normalization are exactly the gated linear blends stated
in the specification (§4.2, steps 1–5). -/
theorem spec_c1 (s : SentimentSignals) (_h : ValidSignals s) :
    (rawScores s).happy =
        (if s.compound > 0.05 then min 1 (s.pos * 0.7 + ((s.polarity + 1) / 2) * 0.3) else 0) ∧
      (rawScores s).sad =
        (if s.compound < -0.05 then
          min 1 (s.neg * 0.6 + (1 - (s.polarity + 1) / 2) * 0.4) else 0) ∧
      (rawScores s).angry =
        (if s.compound < -0.3 then min 1 (s.neg * 0.8 + s.subjectivity * 0.2) else 0) ∧
      (rawScores s).neutral = min 1 (s.neu * 0.7 + (1 - s.subjectivity) * 0.3) ∧
      (rawScores s).surprise = min 1 (s.subjectivity * 0.5) :=
  ⟨rfl, rfl, rfl, rfl, rfl⟩

/-- Witness for C1 at the valid signal with every field `1/2`. -/
theorem spec_c1_witness :
    ValidSignals ⟨0.5, 0.5, 0.5, 0.5, 0.5, 0.5⟩ ∧
      ((rawScores ⟨0.5, 0.5, 0.5, 0.5, 0.5, 0.5⟩).happy =
          (if (0.5 : ℚ) > 0.05 then
            min 1 ((0.5 : ℚ) * 0.7 + (((0.5 : ℚ) + 1) / 2) * 0.3) else 0) ∧
        (rawScores ⟨0.5, 0.5, 0.5, 0.5, 0.5, 0.5⟩).sad =
          (if (0.5 : ℚ) < -0.05 then
            min 1 ((0.5 : ℚ) * 0.6 + (1 - ((0.5 : ℚ) + 1) / 2) * 0.4) else 0) ∧
        (rawScores ⟨0.5, 0.5, 0.5, 0.5, 0.5, 0.5⟩).angry =
          (if (0.5 : ℚ) < -0.3 then min 1 ((0.5 : ℚ) * 0.8 + (0.5 : ℚ) * 0.2) else 0) ∧
        (rawScores ⟨0.5, 0.5, 0.5, 0.5, 0.5, 0.5⟩).neutral =
          min 1 ((0.5 : ℚ) * 0.7 + (1 - (0.5 : ℚ)) * 0.3) ∧
        (rawScores ⟨0.5, 0.5, 0.5, 0.5, 0.5, 0.5⟩).surprise = min 1 ((0.5 : ℚ) * 0.5)) :=
  ⟨by norm_num [ValidSignals], spec_c1 ⟨0.5, 0.5, 0.5, 0.5, 0.5, 0.5⟩ (by norm_num [ValidSignals])⟩

/-- **C2.** For every valid `SentimentSignals`, `_calculate_emotion_scores`
returns five values, each non-negative, whose sum is `1.0` within `1e-9`. -/
theorem spec_c2 (s : SentimentSignals) (h : ValidSignals s) :
    (scoresList (calculate_emotion_scores s)).length = 5 ∧
      0 ≤ (calculate_emotion_scores s).happy ∧
      0 ≤ (calculate_emotion_scores s).sad ∧
      0 ≤ (calculate_emotion_scores s).angry ∧
      0 ≤ (calculate_emotion_scores s).neutral ∧
      0 ≤ (calculate_emotion_scores s).surprise ∧
      |totalScore (calculate_emotion_scores s) - 1| ≤ 1 / 1000000000 := by
  obtain ⟨hh, hs, ha, hn, hp⟩ := rawScores_nonneg s h
  by_cases htot : 0 < totalScore (rawScores s)
  · have hne : totalScore (rawScores s) ≠ 0 := ne_of_gt htot
    have htot' : (0 : ℚ) < (rawScores s).happy + (rawScores s).sad + (rawScores s).angry +
        (rawScores s).neutral + (rawScores s).surprise := htot
    have hne' : (rawScores s).happy + (rawScores s).sad + (rawScores s).angry +
        (rawScores s).neutral + (rawScores s).surprise ≠ 0 := ne_of_gt htot'
    have hsum : totalScore (calculate_emotion_scores s) = 1 := by
      simp only [calculate_emotion_scores]
      rw [if_pos htot]
      simp only [totalScore]
      rw [div_add_div_same, div_add_div_same, div_add_div_same, div_add_div_same]
      exact div_self hne'
    refine ⟨rfl, ?_, ?_, ?_, ?_, ?_, ?_⟩
    · simp only [calculate_emotion_scores]; rw [if_pos htot]
      exact div_nonneg hh htot.le
    · simp only [calculate_emotion_scores]; rw [if_pos htot]
      exact div_nonneg hs htot.le
    · simp only [calculate_emotion_scores]; rw [if_pos htot]
      exact div_nonneg ha htot.le
    · simp only [calculate_emotion_scores]; rw [if_pos htot]
      exact div_nonneg hn htot.le
    · simp only [calculate_emotion_scores]; rw [if_pos htot]
      exact div_nonneg hp htot.le
    · rw [hsum]; norm_num
  · have h0 : (rawScores s).happy = 0 ∧ (rawScores s).sad = 0 ∧ (rawScores s).angry = 0 ∧
        (rawScores s).neutral = 0 ∧ (rawScores s).surprise = 0 := by
      simp only [totalScore, not_lt] at htot
      refine ⟨?_, ?_, ?_, ?_, ?_⟩ <;> linarith
    obtain ⟨e1, e2, e3, e4, e5⟩ := h0
    refine ⟨rfl, ?_, ?_, ?_, ?_, ?_, ?_⟩ <;>
      (simp only [calculate_emotion_scores]; rw [if_neg htot]) <;>
      simp only [totalScore, e1, e2, e3, e5] <;> norm_num

/-- Witness for C2 at the valid signal with every field `1/2`. -/
theorem spec_c2_witness :
    ValidSignals ⟨0.5, 0.5, 0.5, 0.5, 0.5, 0.5⟩ ∧
      ((scoresList (calculate_emotion_scores ⟨0.5, 0.5, 0.5, 0.5, 0.5, 0.5⟩)).length = 5 ∧
        0 ≤ (calculate_emotion_scores ⟨0.5, 0.5, 0.5, 0.5, 0.5, 0.5⟩).happy ∧
        0 ≤ (calculate_emotion_scores ⟨0.5, 0.5, 0.5, 0.5, 0.5, 0.5⟩).sad ∧
        0 ≤ (calculate_emotion_scores ⟨0.5, 0.5, 0.5, 0.5, 0.5, 0.5⟩).angry ∧
        0 ≤ (calculate_emotion_scores ⟨0.5, 0.5, 0.5, 0.5, 0.5, 0.5⟩).neutral ∧
        0 ≤ (calculate_emotion_scores ⟨0.5, 0.5, 0.5, 0.5, 0.5, 0.5⟩).surprise ∧
        |totalScore (calculate_emotion_scores ⟨0.5, 0.5, 0.5, 0.5, 0.5, 0.5⟩) - 1| ≤
          1 / 1000000000) :=
  ⟨by norm_num [ValidSignals], spec_c2 ⟨0.5, 0.5, 0.5, 0.5, 0.5, 0.5⟩ (by norm_num [ValidSignals])⟩

/-- **C3.** For every `EmotionScores` with entries in `[0, 1]`,
`_calculate_confidence` returns `max1 - max2` (boosted and clamped when
`max1 > 0.7`), where `max1` is the largest entry and `max2` the largest of
the remaining entries, and the result lies in `[0, 1]`. -/
theorem spec_c3 (e : EmotionScores) (h : ∀ v ∈ scoresList e, 0 ≤ v ∧ v ≤ 1) :
    calculate_confidence e =
        (if maxScore e > 0.7 then min 1 ((maxScore e - secondMax e) + 0.2)
          else maxScore e - secondMax e) ∧
      maxScore e ∈ scoresList e ∧
      (∀ v ∈ scoresList e, v ≤ maxScore e) ∧
      secondMax e ∈ (scoresList e).erase (maxScore e) ∧
      (∀ v ∈ (scoresList e).erase (maxScore e), v ≤ secondMax e) ∧
      0 ≤ calculate_confidence e ∧ calculate_confidence e ≤ 1 := by
  have hne : scoresList e ≠ [] := by simp [scoresList]
  have hmem : maxScore e ∈ scoresList e := listMax_mem hne
  have herase : (scoresList e).erase (maxScore e) ≠ [] := by
    have hlen : ((scoresList e).erase (maxScore e)).length = 4 := by
      rw [List.length_erase, if_pos hmem]; rfl
    intro hnil
    rw [hnil] at hlen
    exact absurd hlen (by norm_num)
  have hmem2 : secondMax e ∈ (scoresList e).erase (maxScore e) := listMax_mem herase
  have hle : secondMax e ≤ maxScore e := le_listMax (List.mem_of_mem_erase hmem2)
  have hmax1 : maxScore e ≤ 1 := (h _ hmem).2
  have hmax20 : 0 ≤ secondMax e := (h _ (List.mem_of_mem_erase hmem2)).1
  refine ⟨rfl, hmem, fun v hv => le_listMax hv, hmem2, fun v hv => le_listMax hv, ?_, ?_⟩ <;>
    · simp only [calculate_confidence]
      split_ifs
      · first
          | (rw [le_min_iff]; constructor <;> linarith)
          | exact min_le_left _ _
      · linarith

/-- Witness for C3 at the score record `⟨1, 0, 0, 0, 0⟩`. -/
theorem spec_c3_witness :
    (∀ v ∈ scoresList ⟨1, 0, 0, 0, 0⟩, 0 ≤ v ∧ v ≤ 1) ∧
      (calculate_confidence ⟨1, 0, 0, 0, 0⟩ =
          (if maxScore ⟨1, 0, 0, 0, 0⟩ > 0.7 then
            min 1 ((maxScore ⟨1, 0, 0, 0, 0⟩ - secondMax ⟨1, 0, 0, 0, 0⟩) + 0.2)
           else maxScore ⟨1, 0, 0, 0, 0⟩ - secondMax ⟨1, 0, 0, 0, 0⟩) ∧
        maxScore ⟨1, 0, 0, 0, 0⟩ ∈ scoresList ⟨1, 0, 0, 0, 0⟩ ∧
        (∀ v ∈ scoresList ⟨1, 0, 0, 0, 0⟩, v ≤ maxScore ⟨1, 0, 0, 0, 0⟩) ∧
        secondMax ⟨1, 0, 0, 0, 0⟩ ∈ (scoresList ⟨1, 0, 0, 0, 0⟩).erase (maxScore ⟨1, 0, 0, 0, 0⟩) ∧
        (∀ v ∈ (scoresList ⟨1, 0, 0, 0, 0⟩).erase (maxScore ⟨1, 0, 0, 0, 0⟩),
          v ≤ secondMax ⟨1, 0, 0, 0, 0⟩) ∧
        0 ≤ calculate_confidence ⟨1, 0, 0, 0, 0⟩ ∧ calculate_confidence ⟨1, 0, 0, 0, 0⟩ ≤ 1) :=
  have h : ∀ v ∈ scoresList ⟨1, 0, 0, 0, 0⟩, 0 ≤ v ∧ v ≤ 1 := by
    intro v hv
    simp only [scoresList, List.mem_cons, List.not_mem_nil, or_false] at hv
    rcases hv with rfl | rfl | rfl | rfl | rfl <;> norm_num
  ⟨h, spec_c3 ⟨1, 0, 0, 0, 0⟩ h⟩

/-- **C4 (counterexample).** At the all-zero signal (subjectivity `0`,
neutral fraction `0`, every gate closed) the raw pre-normalization sum is
`0.3`, not `0`: the always-on neutral term contributes
`(1 - subjectivity) * 0.3 = 0.3`.  The zero-sum fallback branch does not
fire on this input. -/
theorem spec_c4_cex :
    totalScore (rawScores ⟨0, 0, 0, 0, 0, 0⟩) = 0.3 ∧
      totalScore (rawScores ⟨0, 0, 0, 0, 0, 0⟩) ≠ 0 := by
  have h : totalScore (rawScores ⟨0, 0, 0, 0, 0, 0⟩) = 0.3 := by
    simp only [rawScores, totalScore]
    norm_num
  exact ⟨h, by rw [h]; norm_num⟩

/-- **C4 (amended).** At the all-zero signal the raw scores are
`(0, 0, 0, 0.3, 0)` with positive sum `0.3`, and the normalization step
divides by this sum, which yields `neutral = 1.0` and every other emotion
`0`. -/
theorem spec_c4 :
    rawScores ⟨0, 0, 0, 0, 0, 0⟩ = ⟨0, 0, 0, 0.3, 0⟩ ∧
      0 < totalScore (rawScores ⟨0, 0, 0, 0, 0, 0⟩) ∧
      calculate_emotion_scores ⟨0, 0, 0, 0, 0, 0⟩ = ⟨0, 0, 0, 1, 0⟩ := by
  refine ⟨?_, ?_, ?_⟩
  · simp only [rawScores, EmotionScores.mk.injEq]
    norm_num
  · simp only [rawScores, totalScore]
    norm_num
  · simp only [calculate_emotion_scores, rawScores, totalScore, EmotionScores.mk.injEq]
    norm_num

/-- **C5.** For every score record, `max(emotion_scores, key=...)` returns
an emotion of maximal score, and among the emotions attaining that score
it is the earliest in the declaration order
`{happy, sad, angry, neutral, surprise}`. -/
theorem spec_c5 (e : EmotionScores) :
    (∀ x, emotionScore e x ≤ emotionScore e (primary_emotion e)) ∧
      (∀ x, emotionScore e x = emotionScore e (primary_emotion e) →
        emotionOrder (primary_emotion e) ≤ emotionOrder x) := by
  simp only [primary_emotion, emotionList, List.foldl, emotionScore]
  split_ifs <;>
    (constructor <;> intro x <;> cases x <;> simp_all [emotionScore, emotionOrder] <;> linarith)

/-- Witness for C5 at the score record `⟨0, 0, 0, 0, 0⟩` (a five-way tie,
resolved to `happy`, the earliest category). -/
theorem spec_c5_witness :
    (∀ x, emotionScore ⟨0, 0, 0, 0, 0⟩ x ≤
      emotionScore ⟨0, 0, 0, 0, 0⟩ (primary_emotion ⟨0, 0, 0, 0, 0⟩)) ∧
      (∀ x, emotionScore ⟨0, 0, 0, 0, 0⟩ x =
          emotionScore ⟨0, 0, 0, 0, 0⟩ (primary_emotion ⟨0, 0, 0, 0, 0⟩) →
        emotionOrder (primary_emotion ⟨0, 0, 0, 0, 0⟩) ≤ emotionOrder x) :=
  spec_c5 ⟨0, 0, 0, 0, 0⟩

/-- **C8.** Scenario B of the specification: at
`compound = -0.5, positive = 0, negative = 0.6, neutral = 0.4,
polarity = -0.5, subjectivity = 0.5` the raw scores are exactly
`happy = 0, sad = 0.66, angry = 0.58, neutral = 0.43, surprise = 0.25`;
after normalization `sad` is the strictly largest entry and the primary
emotion is `sad`. -/
theorem spec_c8 :
    rawScores ⟨-0.5, 0, 0.6, 0.4, -0.5, 0.5⟩ = ⟨0, 0.66, 0.58, 0.43, 0.25⟩ ∧
      ((calculate_emotion_scores ⟨-0.5, 0, 0.6, 0.4, -0.5, 0.5⟩).happy <
        (calculate_emotion_scores ⟨-0.5, 0, 0.6, 0.4, -0.5, 0.5⟩).sad ∧
       (calculate_emotion_scores ⟨-0.5, 0, 0.6, 0.4, -0.5, 0.5⟩).angry <
        (calculate_emotion_scores ⟨-0.5, 0, 0.6, 0.4, -0.5, 0.5⟩).sad ∧
       (calculate_emotion_scores ⟨-0.5, 0, 0.6, 0.4, -0.5, 0.5⟩).neutral <
        (calculate_emotion_scores ⟨-0.5, 0, 0.6, 0.4, -0.5, 0.5⟩).sad ∧
       (calculate_emotion_scores ⟨-0.5, 0, 0.6, 0.4, -0.5, 0.5⟩).surprise <
        (calculate_emotion_scores ⟨-0.5, 0, 0.6, 0.4, -0.5, 0.5⟩).sad) ∧
      primary_emotion (calculate_emotion_scores ⟨-0.5, 0, 0.6, 0.4, -0.5, 0.5⟩) = .sad := by
  refine ⟨?_, ?_, ?_⟩
  · simp only [rawScores, EmotionScores.mk.injEq]
    norm_num
  · simp only [calculate_emotion_scores, rawScores, totalScore]
    norm_num
  · simp only [primary_emotion, emotionList, List.foldl, emotionScore,
      calculate_emotion_scores, rawScores, totalScore]
    norm_num

/-! ### Helper lemmas: `stripChars` -/

lemma stripChars_nil : stripChars [] = [] := rfl

lemma stripChars_eq_nil_of_all_space {t : List Char} (h : ∀ c ∈ t, isSpace c = true) :
    stripChars t = [] := by
  unfold stripChars
  rw [List.dropWhile_eq_nil_iff.2 h]
  rfl

lemma dropWhile_replicate_not {p : Char → Bool} {a : Char} (h : p a = false) (n : Nat) :
    (List.replicate n a).dropWhile p = List.replicate n a := by
  cases n with
  | zero => rfl
  | succ n => rw [List.replicate_succ, List.dropWhile_cons, h]; simp

lemma stripChars_replicate_not {a : Char} (h : isSpace a = false) (n : Nat) :
    stripChars (List.replicate n a) = List.replicate n a := by
  unfold stripChars
  rw [dropWhile_replicate_not h, List.reverse_replicate, dropWhile_replicate_not h,
    List.reverse_replicate]

/-! ### The service-boundary claims C9 and C10 -/

/-- **C9.** A request whose `text` is present, non-empty after trimming,
and longer than 5000 characters (raw length, before any normalization) is
rejected with status 400 and the error
`Text too long. Maximum 5000 characters.`. -/
theorem spec_c9 (t : List Char) (h1 : (stripChars t).isEmpty = false) (h2 : 5000 < t.length) :
    validate_request (some (some t)) = .tooLong ∧
      statusOf (validate_request (some (some t))) = 400 ∧
      errorOf (validate_request (some (some t))) =
        "Text too long. Maximum 5000 characters.".toList := by
  have ht : t.isEmpty = false := by
    cases t with
    | nil => rw [stripChars_nil] at h1; exact absurd h1 (by simp)
    | cons c cs => rfl
  have hcond : (t.isEmpty || (stripChars t).isEmpty) = false := by rw [ht, h1]; rfl
  have hval : validate_request (some (some t)) = .tooLong := by
    simp only [validate_request, hcond, Bool.false_eq_true, if_false]
    rw [if_pos h2]
  exact ⟨hval, by rw [hval]; rfl, by rw [hval]; rfl⟩

/-- Witness for C9: 5001 copies of `'a'`. -/
theorem spec_c9_witness :
    (stripChars (List.replicate 5001 'a')).isEmpty = false ∧
      5000 < (List.replicate 5001 'a').length ∧
      (validate_request (some (some (List.replicate 5001 'a'))) = .tooLong ∧
        statusOf (validate_request (some (some (List.replicate 5001 'a')))) = 400 ∧
        errorOf (validate_request (some (some (List.replicate 5001 'a')))) =
          "Text too long. Maximum 5000 characters.".toList) :=
  have h1 : (stripChars (List.replicate 5001 'a')).isEmpty = false := by
    rw [stripChars_replicate_not (by decide), List.replicate_succ]
    rfl
  have h2 : 5000 < (List.replicate 5001 'a').length := by
    rw [List.length_replicate]; norm_num
  ⟨h1, h2, spec_c9 (List.replicate 5001 'a') h1 h2⟩

/-- **C10.** The validation checks of `analyze_emotion` run in source
order (missing field, then emptiness after trim, then raw length), so a
whitespace-only text longer than 5000 characters is rejected as empty
(`Text cannot be empty`), not as too long. -/
theorem spec_c10 (t : List Char) (hsp : ∀ c ∈ t, isSpace c = true) (_h2 : 5000 < t.length) :
    validate_request (some (some t)) = .emptyText ∧
      statusOf (validate_request (some (some t))) = 400 ∧
      errorOf (validate_request (some (some t))) = "Text cannot be empty".toList := by
  have hstrip : (stripChars t).isEmpty = true := by
    rw [stripChars_eq_nil_of_all_space hsp]; rfl
  have hcond : (t.isEmpty || (stripChars t).isEmpty) = true := by
    rw [hstrip, Bool.or_true]
  have hval : validate_request (some (some t)) = .emptyText := by
    simp only [validate_request, hcond, if_true]
  exact ⟨hval, by rw [hval]; rfl, by rw [hval]; rfl⟩

/-- Witness for C10: 5001 spaces. -/
theorem spec_c10_witness :
    (∀ c ∈ List.replicate 5001 ' ', isSpace c = true) ∧
      5000 < (List.replicate 5001 ' ').length ∧
      (validate_request (some (some (List.replicate 5001 ' '))) = .emptyText ∧
        statusOf (validate_request (some (some (List.replicate 5001 ' ')))) = 400 ∧
        errorOf (validate_request (some (some (List.replicate 5001 ' ')))) =
          "Text cannot be empty".toList) :=
  have hsp : ∀ c ∈ List.replicate 5001 ' ', isSpace c = true := by
    intro c hc
    rw [(List.mem_replicate.1 hc).2]
    decide
  have h2 : 5000 < (List.replicate 5001 ' ').length := by
    rw [List.length_replicate]; norm_num
  ⟨hsp, h2, spec_c10 (List.replicate 5001 ' ') hsp h2⟩

/-! ### Helper lemmas: characters -/

lemma lowerChar_toNat_of_upper {c : Char} (h1 : 65 ≤ c.toNat) (h2 : c.toNat ≤ 90) :
    (Char.ofNat (c.toNat + 32)).toNat = c.toNat + 32 := by
  interval_cases h : c.toNat <;> decide

lemma lowerChar_idem (c : Char) : lowerChar (lowerChar c) = lowerChar c := by
  unfold lowerChar
  by_cases h : 65 ≤ c.toNat ∧ c.toNat ≤ 90
  · rw [if_pos h, if_neg (by rw [lowerChar_toNat_of_upper h.1 h.2]; omega)]
  · rw [if_neg h, if_neg h]

lemma isSpace_lowerChar (c : Char) : isSpace (lowerChar c) = isSpace c := by
  unfold lowerChar
  by_cases h : 65 ≤ c.toNat ∧ c.toNat ≤ 90
  · rw [if_pos h]
    unfold isSpace
    obtain ⟨h1, h2⟩ := h
    interval_cases h : c.toNat <;> decide
  · rw [if_neg h]

/-! ### Helper lemmas: `startsWith`, runs and the match predicates -/

lemma startsWith_append_left {p u : List Char} (v : List Char) (h : startsWith p u = true) :
    startsWith p (u ++ v) = true := by
  induction p generalizing u with
  | nil => rfl
  | cons a ps ih =>
    cases u with
    | nil => exact absurd h (by simp [startsWith])
    | cons c cs =>
      simp only [startsWith, Bool.and_eq_true] at h
      simp only [List.cons_append, startsWith, Bool.and_eq_true]
      exact ⟨h.1, ih h.2⟩

lemma startsWith_append_run {p u v : List Char} (hp : ∀ c ∈ p, isSpace c = false)
    (hv : SpHead v) : startsWith p (u ++ v) = startsWith p u := by
  induction p generalizing u with
  | nil => rfl
  | cons a ps ih =>
    cases u with
    | nil =>
      rcases hv with rfl | ⟨d, v', rfl, hd⟩
      · rfl
      · have ha : isSpace a = false := hp a (List.mem_cons_self _ _)
        have hne : (a == d) = false := by
          refine beq_eq_false_iff_ne.2 ?_
          intro hh
          rw [hh, hd] at ha
          exact absurd ha (by simp)
        simp [startsWith, hne]
    | cons c cs =>
      simp only [List.cons_append, startsWith, List.append_eq]
      rw [ih (fun x hx => hp x (List.mem_cons_of_mem _ hx))]

lemma takeWhile_append_run {u v : List Char} (hu : NonSp u) (hv : SpHead v) :
    (u ++ v).takeWhile (fun c => !isSpace c) = u := by
  induction u with
  | nil =>
    rcases hv with rfl | ⟨d, v', rfl, hd⟩
    · rfl
    · simp [List.takeWhile_cons, hd]
  | cons c u' ih =>
    have hc : isSpace c = false := hu c (List.mem_cons_self _ _)
    simp only [List.cons_append, List.takeWhile_cons, hc]
    simp only [Bool.not_false, if_true]
    rw [ih (fun x hx => hu x (List.mem_cons_of_mem _ hx))]

lemma dropWhile_append_run {u v : List Char} (hu : NonSp u) (hv : SpHead v) :
    (u ++ v).dropWhile (fun c => !isSpace c) = v := by
  induction u with
  | nil =>
    rcases hv with rfl | ⟨d, v', rfl, hd⟩
    · rfl
    · simp [List.dropWhile_cons, hd]
  | cons c u' ih =>
    have hc : isSpace c = false := hu c (List.mem_cons_self _ _)
    simp only [List.cons_append, List.dropWhile_cons, hc]
    simp only [Bool.not_false, if_true]
    exact ih (fun x hx => hu x (List.mem_cons_of_mem _ hx))

lemma runLen_append_run {u v : List Char} (hu : NonSp u) (hv : SpHead v) :
    runLen (u ++ v) = u.length := by
  unfold runLen
  rw [takeWhile_append_run hu hv]

lemma urlMatchAt_append_run {u v : List Char} (hu : NonSp u) (hv : SpHead v) :
    urlMatchAt (u ++ v) = tokTrigU u := by
  unfold urlMatchAt tokTrigU
  rw [startsWith_append_run (by decide) hv, startsWith_append_run (by decide) hv,
    runLen_append_run hu hv]

lemma emailMatchAt_append_run {u v : List Char} (hu : NonSp u) (hv : SpHead v) :
    emailMatchAt (u ++ v) = tokTrigE u := by
  unfold emailMatchAt tokTrigE
  rw [takeWhile_append_run hu hv]

lemma urlMatchAt_spHead {v : List Char} (hv : SpHead v) : urlMatchAt v = false := by
  have h := urlMatchAt_append_run (u := []) (fun c hc => absurd hc (List.not_mem_nil c)) hv
  rw [List.nil_append] at h
  rw [h]
  decide

lemma emailMatchAt_spHead {v : List Char} (hv : SpHead v) : emailMatchAt v = false := by
  have h := emailMatchAt_append_run (u := []) (fun c hc => absurd hc (List.not_mem_nil c)) hv
  rw [List.nil_append] at h
  rw [h]
  decide

lemma tokTrigU_append_mono {w z : List Char} (h : tokTrigU w = true) :
    tokTrigU (w ++ z) = true := by
  simp only [tokTrigU, Bool.or_eq_true, Bool.and_eq_true, decide_eq_true_eq] at h ⊢
  rcases h with ⟨h1, h2⟩ | ⟨h1, h2⟩
  · exact Or.inl ⟨startsWith_append_left z h1, by rw [List.length_append]; omega⟩
  · exact Or.inr ⟨startsWith_append_left z h1, by rw [List.length_append]; omega⟩

lemma contains_at_iff_mem {l : List Char} : l.contains '@' = true ↔ '@' ∈ l := by
  simp [List.contains]

lemma tokTrigE_append_mono {w z : List Char} (h : tokTrigE w = true) :
    tokTrigE (w ++ z) = true := by
  unfold tokTrigE at h ⊢
  rw [contains_at_iff_mem] at h ⊢
  cases w with
  | nil => simp at h
  | cons c w' =>
    simp only [List.drop_one, List.tail_cons] at h
    simp only [List.cons_append, List.drop_one, List.tail_cons]
    cases z with
    | nil => rw [List.append_nil]; exact h
    | cons e z' =>
      rw [List.dropLast_append_of_ne_nil _ (by simp)]
      exact List.mem_append_left _ ((List.dropLast_sublist w').mem h)

/-! ### Helper lemmas: the generic substitution scan `subGo` -/

lemma subGo_space_cons (m : List Char → Bool) {d : Char} (hd : isSpace d = true) (b : Bool)
    (cs : List Char) : subGo m b (d :: cs) = d :: subGo m false cs := by
  rw [subGo, if_pos hd]

lemma subGo_true_cons (m : List Char → Bool) {c : Char} (hc : isSpace c = false)
    (cs : List Char) : subGo m true (c :: cs) = subGo m true cs := by
  rw [subGo, hc]
  simp

lemma subGo_cons_match (m : List Char → Bool) {c : Char} {cs : List Char}
    (hc : isSpace c = false) (hm : m (c :: cs) = true) :
    subGo m false (c :: cs) = subGo m true cs := by
  rw [subGo, hc, hm]
  simp

lemma subGo_cons_nomatch (m : List Char → Bool) {c : Char} {cs : List Char}
    (hc : isSpace c = false) (hm : m (c :: cs) = false) :
    subGo m false (c :: cs) = c :: subGo m false cs := by
  rw [subGo, hc, hm]
  simp

lemma subGo_id (m : List Char → Bool) {l : List Char} (h : ∀ n, m (l.drop n) = false) :
    subGo m false l = l := by
  induction l with
  | nil => rfl
  | cons c cs ih =>
    have hs : ∀ n, m (cs.drop n) = false := fun n => h (n + 1)
    by_cases hc : isSpace c = true
    · rw [subGo_space_cons m hc, ih hs]
    · rw [subGo_cons_nomatch m (by simpa using hc) (h 0), ih hs]

lemma mem_subGo (m : List Char → Bool) {c : Char} :
    ∀ {b : Bool} {l : List Char}, c ∈ subGo m b l → c ∈ l := by
  intro b l
  induction l generalizing b with
  | nil => intro h; exact absurd h (List.not_mem_nil c)
  | cons d cs ih =>
    intro h
    by_cases hd : isSpace d = true
    · rw [subGo_space_cons m hd] at h
      rcases List.mem_cons.1 h with rfl | h'
      · exact List.mem_cons_self _ _
      · exact List.mem_cons_of_mem _ (ih h')
    · have hd' : isSpace d = false := by simpa using hd
      cases b with
      | true =>
        rw [subGo_true_cons m hd'] at h
        exact List.mem_cons_of_mem _ (ih h)
      | false =>
        by_cases hm : m (d :: cs) = true
        · rw [subGo_cons_match m hd' hm] at h
          exact List.mem_cons_of_mem _ (ih h)
        · rw [subGo_cons_nomatch m hd' (by simpa using hm)] at h
          rcases List.mem_cons.1 h with rfl | h'
          · exact List.mem_cons_self _ _
          · exact List.mem_cons_of_mem _ (ih h')

lemma subGo_true_run (m : List Char → Bool) {u v : List Char} (hu : NonSp u) (hv : SpHead v) :
    subGo m true (u ++ v) = subGo m false v := by
  induction u with
  | nil =>
    rw [List.nil_append]
    rcases hv with rfl | ⟨d, v', rfl, hd⟩
    · rfl
    · rw [subGo_space_cons m hd, subGo_space_cons m hd]
  | cons c u' ih =>
    rw [List.cons_append, subGo_true_cons m (hu c (List.mem_cons_self _ _))]
    exact ih (fun x hx => hu x (List.mem_cons_of_mem _ hx))

lemma subGo_false_run (m trig : List Char → Bool)
    (hbridge : ∀ u v : List Char, NonSp u → SpHead v → m (u ++ v) = trig u)
    {u v : List Char} (hu : NonSp u) (hv : SpHead v) :
    subGo m false (u ++ v) = cutRun trig u ++ subGo m false v := by
  induction u with
  | nil => rw [List.nil_append, cutRun, List.nil_append]
  | cons c u' ih =>
    have hc : isSpace c = false := hu c (List.mem_cons_self _ _)
    have hu' : NonSp u' := fun x hx => hu x (List.mem_cons_of_mem _ hx)
    have hm : m (c :: (u' ++ v)) = trig (c :: u') := by
      rw [← List.cons_append]
      exact hbridge _ _ hu hv
    by_cases ht : trig (c :: u') = true
    · rw [List.cons_append, subGo_cons_match m hc (by rw [hm, ht]),
        subGo_true_run m hu' hv, cutRun, if_pos ht, List.nil_append]
    · have ht' : trig (c :: u') = false := by simpa using ht
      rw [List.cons_append, subGo_cons_nomatch m hc (by rw [hm, ht']), ih hu',
        cutRun, if_neg ht, List.cons_append]

/-! ### Helper lemmas: `cutRun` -/

lemma cutRun_subset {trig : List Char → Bool} :
    ∀ {u : List Char}, ∀ c ∈ cutRun trig u, c ∈ u := by
  intro u
  induction u with
  | nil => intro c hc; exact absurd hc (List.not_mem_nil c)
  | cons d cs ih =>
    intro c hc
    rw [cutRun] at hc
    split_ifs at hc with ht
    · exact absurd hc (List.not_mem_nil c)
    · rcases List.mem_cons.1 hc with rfl | h'
      · exact List.mem_cons_self _ _
      · exact List.mem_cons_of_mem _ (ih c h')

lemma cutRun_eq_take (trig : List Char → Bool) (u : List Char) :
    ∃ k, cutRun trig u = u.take k := by
  induction u with
  | nil => exact ⟨0, rfl⟩
  | cons d cs ih =>
    rw [cutRun]
    split_ifs with ht
    · exact ⟨0, rfl⟩
    · obtain ⟨k, hk⟩ := ih
      exact ⟨k + 1, by rw [hk, List.take_succ_cons]⟩

lemma cutRun_noTrig (trig : List Char → Bool)
    (hmono : ∀ w z : List Char, trig w = true → trig (w ++ z) = true)
    (hnil : trig [] = false) (u : List Char) :
    ∀ n, trig ((cutRun trig u).drop n) = false := by
  induction u with
  | nil => intro n; rw [cutRun, List.drop_nil]; exact hnil
  | cons c cs ih =>
    intro n
    by_cases ht : trig (c :: cs) = true
    · rw [cutRun, if_pos ht, List.drop_nil]; exact hnil
    · rw [cutRun, if_neg ht]
      cases n with
      | zero =>
        rw [List.drop_zero]
        by_contra h'
        have h'' : trig (c :: cutRun trig cs) = true := by
          cases hx : trig (c :: cutRun trig cs)
          · exact absurd hx h'
          · rfl
        obtain ⟨k, hk⟩ := cutRun_eq_take trig cs
        have := hmono _ (cs.drop k) h''
        rw [hk, List.cons_append, List.take_append_drop] at this
        exact absurd this ht
      | succ n =>
        rw [List.drop_succ_cons]
        exact ih n

lemma cutRun_noTrig_pres (trig trig' : List Char → Bool)
    (hmono' : ∀ w z : List Char, trig' w = true → trig' (w ++ z) = true)
    {u : List Char} (hall : ∀ n, trig' (u.drop n) = false) :
    ∀ n, trig' ((cutRun trig u).drop n) = false := by
  intro n
  obtain ⟨k, hk⟩ := cutRun_eq_take trig u
  rw [hk]
  by_cases hn : n ≤ (u.take k).length
  · cases hx : trig' ((u.take k).drop n)
    · rfl
    · exfalso
      have hdecomp : u.drop n = (u.take k).drop n ++ u.drop k := by
        conv_lhs => rw [← List.take_append_drop k u]
        rw [List.drop_append_of_le_length hn]
      have := hmono' _ (u.drop k) hx
      rw [← hdecomp] at this
      rw [hall n] at this
      exact Bool.false_ne_true this
  · rw [List.drop_of_length_le (by omega)]
    have h0 := hall u.length
    rw [List.drop_length] at h0
    exact h0

/-! ### Helper lemmas: `tokens` -/

lemma tokens_nil : tokens [] = [] := by rw [tokens]

lemma tokens_space_cons {d : Char} (hd : isSpace d = true) (cs : List Char) :
    tokens (d :: cs) = tokens cs := by
  rw [tokens, if_pos hd]

lemma mem_of_takeWhile {p : Char → Bool} : ∀ {l : List Char} {x : Char}, x ∈ l.takeWhile p → x ∈ l := by
  intro l
  induction l with
  | nil => intro x hx; exact absurd hx (List.not_mem_nil x)
  | cons c cs ih =>
    intro x hx
    rw [List.takeWhile_cons] at hx
    split_ifs at hx
    · rcases List.mem_cons.1 hx with rfl | h'
      · exact List.mem_cons_self _ _
      · exact List.mem_cons_of_mem _ (ih h')
    · exact absurd hx (List.not_mem_nil x)

lemma tokens_append_run {u v : List Char} (hu : NonSp u) (hne : u ≠ []) (hv : SpHead v) :
    tokens (u ++ v) = u :: tokens v := by
  cases u with
  | nil => exact absurd rfl hne
  | cons c u' =>
    have hc : isSpace c = false := hu c (List.mem_cons_self _ _)
    have hu' : NonSp u' := fun x hx => hu x (List.mem_cons_of_mem _ hx)
    rw [List.cons_append, tokens, if_neg (by rw [hc]; simp)]
    congr 1
    · rw [← List.cons_append, takeWhile_append_run hu hv]
    · rw [dropWhile_append_run hu' hv]

lemma tokens_dropWhile_sp (l : List Char) : tokens (l.dropWhile isSpace) = tokens l := by
  induction l using tokens.induct with
  | case1 => rfl
  | case2 c cs hc ih =>
    rw [List.dropWhile_cons, if_pos hc, tokens_space_cons hc]
    exact ih
  | case3 c cs hc ih =>
    have hc' : isSpace c = false := by simpa using hc
    rw [List.dropWhile_cons, if_neg (by rw [hc']; simp)]

lemma mem_tokens_props : ∀ {l t : List Char}, t ∈ tokens l →
    t ≠ [] ∧ ∀ c ∈ t, isSpace c = false ∧ c ∈ l := by
  intro l
  induction l using tokens.induct with
  | case1 =>
    intro t ht
    rw [tokens_nil] at ht
    exact absurd ht (List.not_mem_nil t)
  | case2 c cs hc ih =>
    intro t ht
    rw [tokens_space_cons hc] at ht
    obtain ⟨h1, h2⟩ := ih ht
    exact ⟨h1, fun x hx => ⟨(h2 x hx).1, List.mem_cons_of_mem _ (h2 x hx).2⟩⟩
  | case3 c cs hc ih =>
    intro t ht
    have hc' : isSpace c = false := by simpa using hc
    rw [tokens, if_neg hc] at ht
    rcases List.mem_cons.1 ht with rfl | h'
    · constructor
      · rw [List.takeWhile_cons, if_pos (by rw [hc']; simp)]
        simp
      · intro x hx
        have hx' : (fun c => !isSpace c) x = true :=
          List.mem_takeWhile_imp (p := fun c => !isSpace c) hx
        exact ⟨by simpa using hx', mem_of_takeWhile hx⟩
    · obtain ⟨h1, h2⟩ := ih h'
      refine ⟨h1, fun x hx => ⟨(h2 x hx).1, ?_⟩⟩
      have : x ∈ cs := (List.dropWhile_suffix (fun c => !isSpace c)).sublist.subset (h2 x hx).2
      exact List.mem_cons_of_mem _ this

/-! ### Helper lemmas: `sqGo`, `stripChars` and `joinToks` -/

lemma dropWhile_head_not {p : Char → Bool} :
    ∀ {l : List Char} {d : Char} {v' : List Char}, l.dropWhile p = d :: v' → p d = false := by
  intro l
  induction l with
  | nil => intro d v' h; cases h
  | cons c cs ih =>
    intro d v' h
    rw [List.dropWhile_cons] at h
    split_ifs at h with hc
    · exact ih h
    · cases h
      simpa using hc

lemma sqGo_cons_nonsp (b : Bool) {c : Char} (hc : isSpace c = false) (cs : List Char) :
    sqGo b (c :: cs) = c :: sqGo false cs := by
  rw [sqGo, hc]
  simp

lemma sqGo_false_space {d : Char} (hd : isSpace d = true) (cs : List Char) :
    sqGo false (d :: cs) = ' ' :: sqGo true cs := by
  rw [sqGo, hd]
  simp

lemma sqGo_true_space {d : Char} (hd : isSpace d = true) (cs : List Char) :
    sqGo true (d :: cs) = sqGo true cs := by
  rw [sqGo, hd]
  simp

lemma sqGo_true_eq_dropWhile (l : List Char) :
    sqGo true l = sqGo false (l.dropWhile isSpace) := by
  induction l with
  | nil => rfl
  | cons c cs ih =>
    by_cases hc : isSpace c = true
    · rw [sqGo_true_space hc, List.dropWhile_cons, if_pos hc, ih]
    · have hc' : isSpace c = false := by simpa using hc
      rw [sqGo_cons_nonsp true hc', List.dropWhile_cons, if_neg hc, sqGo_cons_nonsp false hc']

lemma sqGo_run {u : List Char} (hu : NonSp u) (z : List Char) :
    sqGo false (u ++ z) = u ++ sqGo false z := by
  induction u with
  | nil => rfl
  | cons c u' ih =>
    rw [List.cons_append, sqGo_cons_nonsp false (hu c (List.mem_cons_self _ _)),
      ih (fun x hx => hu x (List.mem_cons_of_mem _ hx)), List.cons_append]

lemma mem_sqGo {c : Char} : ∀ {b : Bool} {l : List Char}, c ∈ sqGo b l → c = ' ' ∨ c ∈ l := by
  intro b l
  induction l generalizing b with
  | nil => intro h; exact absurd h (List.not_mem_nil c)
  | cons d cs ih =>
    intro h
    by_cases hd : isSpace d = true
    · cases b with
      | true =>
        rw [sqGo_true_space hd] at h
        rcases ih h with h' | h'
        · exact Or.inl h'
        · exact Or.inr (List.mem_cons_of_mem _ h')
      | false =>
        rw [sqGo_false_space hd] at h
        rcases List.mem_cons.1 h with rfl | h'
        · exact Or.inl rfl
        · rcases ih h' with h'' | h''
          · exact Or.inl h''
          · exact Or.inr (List.mem_cons_of_mem _ h'')
    · have hd' : isSpace d = false := by simpa using hd
      rw [sqGo_cons_nonsp b hd'] at h
      rcases List.mem_cons.1 h with rfl | h'
      · exact Or.inr (List.mem_cons_self _ _)
      · rcases ih h' with h'' | h''
        · exact Or.inl h''
        · exact Or.inr (List.mem_cons_of_mem _ h'')

lemma stripChars_space_cons {d : Char} (hd : isSpace d = true) (z : List Char) :
    stripChars (d :: z) = stripChars z := by
  unfold stripChars
  rw [List.dropWhile_cons, if_pos hd]

lemma dropWhile_sp_eq_self {l : List Char}
    (h : l = [] ∨ ∃ c l', l = c :: l' ∧ isSpace c = false) : l.dropWhile isSpace = l := by
  rcases h with rfl | ⟨c, l', rfl, hc⟩
  · rfl
  · rw [List.dropWhile_cons, if_neg (by rw [hc]; simp)]

lemma stripChars_nonsp {u : List Char} (hu : NonSp u) : stripChars u = u := by
  unfold stripChars
  have h1 : u.dropWhile isSpace = u := by
    apply dropWhile_sp_eq_self
    cases u with
    | nil => exact Or.inl rfl
    | cons c u' => exact Or.inr ⟨c, u', rfl, hu c (List.mem_cons_self _ _)⟩
  rw [h1]
  have h2 : u.reverse.dropWhile isSpace = u.reverse := by
    apply dropWhile_sp_eq_self
    cases hrev : u.reverse with
    | nil => exact Or.inl rfl
    | cons c w =>
      refine Or.inr ⟨c, w, rfl, hu c ?_⟩
      rw [← List.mem_reverse, hrev]
      exact List.mem_cons_self _ _
  rw [h2, List.reverse_reverse]

lemma stripChars_append_single_space {u : List Char} (hu : NonSp u) (hne : u ≠ []) :
    stripChars (u ++ [' ']) = u := by
  unfold stripChars
  have h1 : (u ++ [' ']).dropWhile isSpace = u ++ [' '] := by
    apply dropWhile_sp_eq_self
    cases u with
    | nil => exact absurd rfl hne
    | cons c u' => exact Or.inr ⟨c, u' ++ [' '], rfl, hu c (List.mem_cons_self _ _)⟩
  rw [h1, List.reverse_append]
  show (([' '].reverse ++ u.reverse).dropWhile isSpace).reverse = u
  rw [List.reverse_singleton, List.singleton_append, List.dropWhile_cons,
    if_pos (by decide)]
  have h2 : u.reverse.dropWhile isSpace = u.reverse := by
    apply dropWhile_sp_eq_self
    cases hrev : u.reverse with
    | nil => exact Or.inl rfl
    | cons c w =>
      refine Or.inr ⟨c, w, rfl, hu c ?_⟩
      rw [← List.mem_reverse, hrev]
      exact List.mem_cons_self _ _
  rw [h2, List.reverse_reverse]

lemma stripChars_append_space_cons {u z : List Char} (hu : NonSp u) (hne : u ≠ [])
    (hz : ∃ e z', z = e :: z' ∧ isSpace e = false) :
    stripChars (u ++ ' ' :: z) = u ++ ' ' :: stripChars z := by
  obtain ⟨e, z', rfl, he⟩ := hz
  have h1 : (u ++ ' ' :: e :: z').dropWhile isSpace = u ++ ' ' :: e :: z' := by
    apply dropWhile_sp_eq_self
    cases u with
    | nil => exact absurd rfl hne
    | cons c u' => exact Or.inr ⟨c, u' ++ ' ' :: e :: z', rfl, hu c (List.mem_cons_self _ _)⟩
  have h2 : ((e :: z').reverse).dropWhile isSpace ≠ [] := by
    intro hcon
    have := List.dropWhile_eq_nil_iff.1 hcon e (by rw [List.mem_reverse]; exact List.mem_cons_self _ _)
    rw [he] at this
    cases this
  unfold stripChars
  rw [h1, dropWhile_sp_eq_self (Or.inr ⟨e, z', rfl, he⟩)]
  have hsplit : (u ++ ' ' :: e :: z').reverse = (e :: z').reverse ++ ' ' :: u.reverse := by
    rw [show (' ' :: e :: z' : List Char) = [' '] ++ e :: z' from rfl, ← List.append_assoc,
      List.reverse_append, List.reverse_append]
    simp
  rw [hsplit, List.dropWhile_append, if_neg (by simpa using h2), List.reverse_append,
    List.reverse_cons, List.reverse_reverse, List.append_assoc]
  simp

lemma joinToks_cons_cons (t t' : List Char) (ts : List (List Char)) :
    joinToks (t :: t' :: ts) = t ++ ' ' :: joinToks (t' :: ts) := by
  rw [joinToks]

lemma joinToks_cons_eq_append (t : List Char) (ts : List (List Char)) :
    ∃ w, joinToks (t :: ts) = t ++ w := by
  cases ts with
  | nil => exact ⟨[], by rw [joinToks, List.append_nil]⟩
  | cons t' ts' => exact ⟨' ' :: joinToks (t' :: ts'), joinToks_cons_cons t t' ts'⟩

lemma mem_joinToks {c : Char} :
    ∀ {ts : List (List Char)}, c ∈ joinToks ts → c = ' ' ∨ ∃ t ∈ ts, c ∈ t := by
  intro ts
  induction ts with
  | nil => intro h; exact absurd h (List.not_mem_nil c)
  | cons t ts ih =>
    intro h
    cases ts with
    | nil =>
      rw [joinToks] at h
      exact Or.inr ⟨t, List.mem_cons_self _ _, h⟩
    | cons t' ts' =>
      rw [joinToks_cons_cons] at h
      rcases List.mem_append.1 h with h' | h'
      · exact Or.inr ⟨t, List.mem_cons_self _ _, h'⟩
      · rcases List.mem_cons.1 h' with rfl | h''
        · exact Or.inl rfl
        · rcases ih h'' with h3 | ⟨t0, ht0, hc0⟩
          · exact Or.inl h3
          · exact Or.inr ⟨t0, List.mem_cons_of_mem _ ht0, hc0⟩

lemma sqGo_joinToks {ts : List (List Char)} (hts : ∀ t ∈ ts, t ≠ [] ∧ NonSp t) :
    sqGo false (joinToks ts) = joinToks ts := by
  induction ts with
  | nil => rfl
  | cons t ts ih =>
    obtain ⟨hne, hns⟩ := hts t (List.mem_cons_self _ _)
    cases ts with
    | nil =>
      rw [joinToks]
      have := sqGo_run hns []
      rw [List.append_nil] at this
      rw [this, show sqGo false [] = ([] : List Char) from rfl, List.append_nil]
    | cons t' ts' =>
      rw [joinToks_cons_cons, sqGo_run hns, sqGo_false_space (by decide)]
      obtain ⟨hne', hns'⟩ := hts t' (List.mem_cons_of_mem _ (List.mem_cons_self _ _))
      obtain ⟨w, hw⟩ := joinToks_cons_eq_append t' ts'
      have hhead : sqGo true (joinToks (t' :: ts')) = sqGo false (joinToks (t' :: ts')) := by
        obtain ⟨e, rest, hte⟩ : ∃ e rest, t' = e :: rest := by
          cases t' with
          | nil => exact absurd rfl hne'
          | cons e rest => exact ⟨e, rest, rfl⟩
        have he : isSpace e = false := hns' e (by rw [hte]; exact List.mem_cons_self _ _)
        rw [hw, hte, List.cons_append, sqGo_cons_nonsp true he, sqGo_cons_nonsp false he]
      rw [hhead, ih (fun x hx => hts x (List.mem_cons_of_mem _ hx))]

lemma joinToks_ne_nil {t : List Char} (hne : t ≠ []) (ts : List (List Char)) :
    joinToks (t :: ts) ≠ [] := by
  obtain ⟨w, hw⟩ := joinToks_cons_eq_append t ts
  rw [hw]
  intro hcon
  exact hne (List.append_eq_nil.1 hcon).1

lemma getLast?_joinToks {ts : List (List Char)} (hts : ∀ t ∈ ts, t ≠ [] ∧ NonSp t) :
    joinToks ts = [] ∨ ∃ c, (joinToks ts).getLast? = some c ∧ isSpace c = false := by
  induction ts with
  | nil => exact Or.inl rfl
  | cons t ts ih =>
    obtain ⟨hne, hns⟩ := hts t (List.mem_cons_self _ _)
    right
    cases ts with
    | nil =>
      rw [joinToks]
      exact ⟨t.getLast hne, List.getLast?_eq_getLast t hne, hns _ (List.getLast_mem hne)⟩
    | cons t' ts' =>
      rcases ih (fun x hx => hts x (List.mem_cons_of_mem _ hx)) with hnil | ⟨c, hc, hcs⟩
      · exact absurd hnil (joinToks_ne_nil (hts t' (by simp)).1 ts')
      · refine ⟨c, ?_, hcs⟩
        rw [joinToks_cons_cons, List.getLast?_append,
          show (' ' :: joinToks (t' :: ts') : List Char) = [' '] ++ joinToks (t' :: ts') from rfl,
          List.getLast?_append, hc]
        rfl

lemma stripChars_joinToks {ts : List (List Char)} (hts : ∀ t ∈ ts, t ≠ [] ∧ NonSp t) :
    stripChars (joinToks ts) = joinToks ts := by
  cases ts with
  | nil => rfl
  | cons t ts' =>
    obtain ⟨hne, hns⟩ := hts t (List.mem_cons_self _ _)
    obtain ⟨w, hw⟩ := joinToks_cons_eq_append t ts'
    unfold stripChars
    have hhead : (joinToks (t :: ts')).dropWhile isSpace = joinToks (t :: ts') := by
      apply dropWhile_sp_eq_self
      rw [hw]
      cases t'' : t with
      | nil => exact absurd t'' hne
      | cons e rest =>
        refine Or.inr ⟨e, rest ++ w, by rw [List.cons_append], ?_⟩
        have := hns e
        rw [t''] at this
        exact this (List.mem_cons_self _ _)
    rw [hhead]
    rcases getLast?_joinToks hts with hnil | ⟨c, hc, hcs⟩
    · exact absurd hnil (joinToks_ne_nil hne ts')
    · have hrev : (joinToks (t :: ts')).reverse.dropWhile isSpace = (joinToks (t :: ts')).reverse := by
        apply dropWhile_sp_eq_self
        cases hr : (joinToks (t :: ts')).reverse with
        | nil => exact Or.inl rfl
        | cons d rest =>
          refine Or.inr ⟨d, rest, rfl, ?_⟩
          have : (joinToks (t :: ts')).reverse.head? = some d := by rw [hr]; rfl
          rw [List.head?_reverse, hc] at this
          cases this
          exact hcs
      rw [hrev, List.reverse_reverse]

/-! ### Helper lemmas: decomposing a list at its first run -/

lemma run_decomp {c : Char} {cs : List Char} (hc : isSpace c = false) :
    ∃ u v, c :: cs = u ++ v ∧ NonSp u ∧ u ≠ [] ∧ SpHead v ∧
      v = cs.dropWhile (fun x => !isSpace x) ∧ v.length ≤ cs.length := by
  refine ⟨(c :: cs).takeWhile (fun x => !isSpace x), cs.dropWhile (fun x => !isSpace x),
    ?_, ?_, ?_, ?_, rfl, (List.dropWhile_suffix _).length_le⟩
  · conv_lhs => rw [← List.takeWhile_append_dropWhile (p := fun x => !isSpace x) (l := c :: cs)]
    congr 1
    rw [List.dropWhile_cons, if_pos (by rw [hc]; simp)]
  · intro x hx
    simpa using List.mem_takeWhile_imp (p := fun x => !isSpace x) hx
  · rw [List.takeWhile_cons, if_pos (by rw [hc]; simp)]
    simp
  · cases hv : cs.dropWhile (fun x => !isSpace x) with
    | nil => exact Or.inl rfl
    | cons d v' => exact Or.inr ⟨d, v', rfl, by simpa using dropWhile_head_not hv⟩

/-! ### Helper lemmas: what the substitution scans do to the tokens -/

lemma tokens_subGo (m trig : List Char → Bool)
    (hbridge : ∀ u v : List Char, NonSp u → SpHead v → m (u ++ v) = trig u) :
    ∀ l : List Char, tokens (subGo m false l) =
      ((tokens l).map (cutRun trig)).filter (fun t => !t.isEmpty) := by
  suffices h : ∀ (n : Nat) (l : List Char), l.length ≤ n →
      tokens (subGo m false l) =
        ((tokens l).map (cutRun trig)).filter (fun t => !t.isEmpty) from
    fun l => h l.length l le_rfl
  intro n
  induction n with
  | zero =>
    intro l hl
    have hnil : l = [] := List.eq_nil_of_length_eq_zero (Nat.le_zero.1 hl)
    subst hnil
    rw [show subGo m false [] = ([] : List Char) from rfl, tokens_nil]
    rfl
  | succ n ih =>
    intro l hl
    cases l with
    | nil =>
      rw [show subGo m false [] = ([] : List Char) from rfl, tokens_nil]
      rfl
    | cons c cs =>
      rw [List.length_cons] at hl
      by_cases hc : isSpace c = true
      · rw [subGo_space_cons m hc, tokens_space_cons hc, tokens_space_cons hc]
        exact ih cs (by omega)
      · have hc' : isSpace c = false := by simpa using hc
        obtain ⟨u, v, hdecomp, hu, hune, hv, -, hvlen⟩ := run_decomp hc'
        rw [hdecomp, subGo_false_run m trig hbridge hu hv, tokens_append_run hu hune hv]
        have hvsp : SpHead (subGo m false v) := by
          rcases hv with rfl | ⟨d, v', rfl, hd⟩
          · exact Or.inl rfl
          · exact Or.inr ⟨d, subGo m false v', subGo_space_cons m hd false v', hd⟩
        have hih := ih v (by omega)
        have hcut_ns : NonSp (cutRun trig u) := fun x hx => hu x (cutRun_subset x hx)
        by_cases hcu : cutRun trig u = []
        · rw [hcu, List.nil_append, hih, List.map_cons, List.filter_cons, hcu]
          simp
        · rw [tokens_append_run hcut_ns hcu hvsp, hih, List.map_cons, List.filter_cons,
            if_pos (by rw [List.isEmpty_eq_false.2 hcu]; rfl)]

/-! ### Helper lemmas: collapsing whitespace equals joining the tokens -/

lemma strip_sq_eq_joinToks : ∀ l : List Char, stripChars (sqGo false l) = joinToks (tokens l) := by
  suffices h : ∀ (n : Nat) (l : List Char), l.length ≤ n →
      stripChars (sqGo false l) = joinToks (tokens l) from fun l => h l.length l le_rfl
  intro n
  induction n with
  | zero =>
    intro l hl
    have hnil : l = [] := List.eq_nil_of_length_eq_zero (Nat.le_zero.1 hl)
    subst hnil
    rw [show sqGo false [] = ([] : List Char) from rfl, stripChars_nil, tokens_nil]
    rfl
  | succ n ih =>
    intro l hl
    cases l with
    | nil =>
      rw [show sqGo false [] = ([] : List Char) from rfl, stripChars_nil, tokens_nil]
      rfl
    | cons c cs =>
      rw [List.length_cons] at hl
      by_cases hc : isSpace c = true
      · rw [sqGo_false_space hc, stripChars_space_cons (by decide), sqGo_true_eq_dropWhile,
          tokens_space_cons hc, ← tokens_dropWhile_sp cs]
        exact ih (cs.dropWhile isSpace)
          (le_trans (List.dropWhile_suffix isSpace).length_le (by omega))
      · have hc' : isSpace c = false := by simpa using hc
        obtain ⟨u, v, hdecomp, hu, hune, hv, -, hvlen⟩ := run_decomp hc'
        rw [hdecomp, sqGo_run hu, tokens_append_run hu hune hv]
        rcases hv with rfl | ⟨d, v', rfl, hd⟩
        · rw [show sqGo false [] = ([] : List Char) from rfl, List.append_nil,
            stripChars_nonsp hu, tokens_nil, joinToks]
        · rw [sqGo_false_space hd, sqGo_true_eq_dropWhile]
          have htokv : tokens (d :: v') = tokens (v'.dropWhile isSpace) := by
            rw [tokens_space_cons hd, tokens_dropWhile_sp]
          have hmlen : (v'.dropWhile isSpace).length ≤ n := by
            have h1 := (List.dropWhile_suffix isSpace (l := v')).length_le
            rw [List.length_cons] at hvlen
            omega
          cases hmm : v'.dropWhile isSpace with
          | nil =>
            rw [show sqGo false [] = ([] : List Char) from rfl,
              stripChars_append_single_space hu hune, htokv, hmm, tokens_nil, joinToks]
          | cons e m' =>
            have he : isSpace e = false := by simpa using dropWhile_head_not hmm
            rw [sqGo_cons_nonsp false he,
              stripChars_append_space_cons hu hune ⟨e, sqGo false m', rfl, he⟩,
              ← sqGo_cons_nonsp false he, ih (e :: m') (by rw [← hmm]; exact hmlen),
              htokv, hmm]
            obtain ⟨t0, rest0, htok⟩ : ∃ t0 rest0, tokens (e :: m') = t0 :: rest0 := by
              rw [tokens, if_neg (by rw [he]; simp)]
              exact ⟨_, _, rfl⟩
            rw [htok, joinToks_cons_cons]

/-! ### Helper lemmas: no match anywhere in a join of inert tokens -/

lemma matchAt_spHead_false {matchAt trig : List Char → Bool}
    (hbridge : ∀ u v : List Char, NonSp u → SpHead v → matchAt (u ++ v) = trig u)
    (htnil : trig [] = false) {v : List Char} (hv : SpHead v) : matchAt v = false := by
  have h0 := hbridge [] v (fun x hx => absurd hx (List.not_mem_nil x)) hv
  rw [List.nil_append] at h0
  rw [h0]
  exact htnil

lemma noMatch_drop_append {matchAt trig : List Char → Bool}
    (hbridge : ∀ u v : List Char, NonSp u → SpHead v → matchAt (u ++ v) = trig u)
    {t v : List Char} (ht : NonSp t) (htrig : ∀ j, trig (t.drop j) = false)
    (hv : SpHead v) (hvall : ∀ n, matchAt (v.drop n) = false) :
    ∀ n, matchAt ((t ++ v).drop n) = false := by
  intro n
  by_cases hn : n ≤ t.length
  · rw [List.drop_append_of_le_length hn,
      hbridge _ _ (fun x hx => ht x (List.drop_subset n t hx)) hv]
    exact htrig n
  · have hn' : n = t.length + (n - t.length) := by omega
    rw [hn', List.drop_append]
    exact hvall _

lemma joinToks_noMatch {matchAt trig : List Char → Bool}
    (hbridge : ∀ u v : List Char, NonSp u → SpHead v → matchAt (u ++ v) = trig u)
    (htnil : trig [] = false) :
    ∀ {ts : List (List Char)},
      (∀ t ∈ ts, NonSp t ∧ ∀ j, trig (t.drop j) = false) →
      ∀ n, matchAt ((joinToks ts).drop n) = false := by
  intro ts
  induction ts with
  | nil =>
    intro _ n
    rw [show joinToks [] = ([] : List Char) from rfl, List.drop_nil]
    exact matchAt_spHead_false hbridge htnil (Or.inl rfl)
  | cons t ts ih =>
    intro hts n
    obtain ⟨hns, htr⟩ := hts t (List.mem_cons_self _ _)
    cases ts with
    | nil =>
      rw [joinToks]
      have h0 := noMatch_drop_append hbridge hns htr (Or.inl rfl)
        (fun k => by rw [List.drop_nil]; exact matchAt_spHead_false hbridge htnil (Or.inl rfl)) n
      rw [List.append_nil] at h0
      exact h0
    | cons t' ts' =>
      rw [joinToks_cons_cons]
      refine noMatch_drop_append hbridge hns htr
        (Or.inr ⟨' ', joinToks (t' :: ts'), rfl, by decide⟩) (fun k => ?_) n
      cases k with
      | zero =>
        rw [List.drop_zero]
        exact matchAt_spHead_false hbridge htnil
          (Or.inr ⟨' ', joinToks (t' :: ts'), rfl, by decide⟩)
      | succ k =>
        rw [List.drop_succ_cons]
        exact ih (fun x hx => hts x (List.mem_cons_of_mem _ hx)) k

/-! ### Helper lemmas: the tokens surviving the two substitutions are inert -/

lemma tokens_pipeline_good (x : List Char) :
    ∀ t ∈ tokens (subGo emailMatchAt false (subGo urlMatchAt false x)),
      t ≠ [] ∧ NonSp t ∧ (∀ j, tokTrigU (t.drop j) = false) ∧
        (∀ j, tokTrigE (t.drop j) = false) := by
  intro t ht
  obtain ⟨hne, hprops⟩ := mem_tokens_props ht
  have hns : NonSp t := fun c hc => (hprops c hc).1
  rw [tokens_subGo emailMatchAt tokTrigE (fun u v hu hv => emailMatchAt_append_run hu hv)] at ht
  obtain ⟨t1, ht1, rfl⟩ := List.mem_map.1 (List.mem_of_mem_filter ht)
  rw [tokens_subGo urlMatchAt tokTrigU (fun u v hu hv => urlMatchAt_append_run hu hv)] at ht1
  obtain ⟨t2, -, rfl⟩ := List.mem_map.1 (List.mem_of_mem_filter ht1)
  refine ⟨hne, hns, ?_, ?_⟩
  · exact cutRun_noTrig_pres tokTrigE tokTrigU (fun w z h => tokTrigU_append_mono h)
      (cutRun_noTrig tokTrigU (fun w z h => tokTrigU_append_mono h) (by decide) t2)
  · exact cutRun_noTrig tokTrigE (fun w z h => tokTrigE_append_mono h) (by decide) _

lemma map_id_of_fix {f : Char → Char} :
    ∀ {l : List Char}, (∀ c ∈ l, f c = c) → l.map f = l := by
  intro l
  induction l with
  | nil => intro _; rfl
  | cons c cs ih =>
    intro h
    rw [List.map_cons, h c (List.mem_cons_self _ _),
      ih (fun x hx => h x (List.mem_cons_of_mem _ hx))]

/-! ### C7: the normalizer is idempotent -/

/-- **C7.** `preprocess_text` is a projection: applying it twice gives the
same result as applying it once, for every input string. -/
theorem spec_c7 (l : List Char) : preprocess_text (preprocess_text l) = preprocess_text l := by
  unfold preprocess_text urlGo emailGo
  set w := subGo emailMatchAt false (subGo urlMatchAt false (l.map lowerChar)) with hw
  rw [strip_sq_eq_joinToks w]
  have hgood : ∀ t ∈ tokens w, t ≠ [] ∧ NonSp t ∧ (∀ j, tokTrigU (t.drop j) = false) ∧
      (∀ j, tokTrigE (t.drop j) = false) := by
    rw [hw]
    exact tokens_pipeline_good (l.map lowerChar)
  have hts : ∀ t ∈ tokens w, t ≠ [] ∧ NonSp t :=
    fun t ht => ⟨(hgood t ht).1, (hgood t ht).2.1⟩
  have hlower : (joinToks (tokens w)).map lowerChar = joinToks (tokens w) := by
    apply map_id_of_fix
    intro c hc
    rcases mem_joinToks hc with rfl | ⟨t, ht, hct⟩
    · decide
    · have hcw : c ∈ w := ((mem_tokens_props ht).2 c hct).2
      have hcx : c ∈ l.map lowerChar :=
        mem_subGo urlMatchAt (mem_subGo emailMatchAt hcw)
      obtain ⟨a, -, rfl⟩ := List.mem_map.1 hcx
      exact lowerChar_idem a
  have hU : ∀ n, urlMatchAt ((joinToks (tokens w)).drop n) = false :=
    joinToks_noMatch (fun u v hu hv => urlMatchAt_append_run hu hv) (by decide)
      (fun t ht => ⟨(hgood t ht).2.1, (hgood t ht).2.2.1⟩)
  have hE : ∀ n, emailMatchAt ((joinToks (tokens w)).drop n) = false :=
    joinToks_noMatch (fun u v hu hv => emailMatchAt_append_run hu hv) (by decide)
      (fun t ht => ⟨(hgood t ht).2.1, (hgood t ht).2.2.2⟩)
  rw [hlower, subGo_id urlMatchAt hU, subGo_id emailMatchAt hE, sqGo_joinToks hts,
    stripChars_joinToks hts]

/-- Witness for C7 at the input `"A  www x http://y me@z"`. -/
theorem spec_c7_witness :
    preprocess_text (preprocess_text "A  www x http://y me@z".toList) =
      preprocess_text "A  www x http://y me@z".toList :=
  spec_c7 "A  www x http://y me@z".toList

/-! ### Helper lemmas for C6 -/

lemma hasSub_false {p l : List Char} (hp : p ≠ []) (h : hasSub p l = false) :
    ∀ n, startsWith p (l.drop n) = false := by
  intro n
  by_cases hn : n ≤ l.length
  · unfold hasSub at h
    have h' := List.any_eq_false.1 h n (List.mem_range.2 (by omega))
    simpa using h'
  · rw [List.drop_of_length_le (by omega)]
    cases p with
    | nil => exact absurd rfl hp
    | cons a ps => rfl

lemma urlMatchAt_imp {s : List Char} (h : urlMatchAt s = true) :
    startsWith httpL s = true ∨ startsWith wwwL s = true := by
  simp only [urlMatchAt, Bool.or_eq_true, Bool.and_eq_true] at h
  rcases h with ⟨h1, -⟩ | ⟨h1, -⟩
  · exact Or.inl h1
  · exact Or.inr h1

lemma emailMatchAt_imp {s : List Char} (h : emailMatchAt s = true) : '@' ∈ s := by
  unfold emailMatchAt at h
  rw [contains_at_iff_mem] at h
  exact mem_of_takeWhile (List.drop_subset _ _ ((List.dropLast_sublist _).subset h))

lemma tokens_ne_nil : ∀ {l : List Char}, (∃ c ∈ l, isSpace c = false) → tokens l ≠ [] := by
  intro l
  induction l using tokens.induct with
  | case1 =>
    rintro ⟨c, hc, -⟩
    exact absurd hc (List.not_mem_nil c)
  | case2 d cs hd ih =>
    rintro ⟨c, hc, hns⟩
    rw [tokens_space_cons hd]
    rcases List.mem_cons.1 hc with rfl | hc'
    · rw [hd] at hns; cases hns
    · exact ih ⟨c, hc', hns⟩
  | case3 d cs hd ih =>
    intro _
    rw [tokens, if_neg hd]
    simp

/-! ### C6: counterexample, amended claim and witness -/

/-- **C6 (counterexample).** The input `"http://x"` passes the service
boundary validation (non-empty after trimming, length at most 5000), yet
its normalization is the empty string: the URL substitution deletes the
whole token.  The claim that every accepted input normalizes to non-empty
text is therefore false. -/
theorem spec_c6_cex :
    validate_request (some (some "http://x".toList)) = .accepted ∧
      preprocess_text "http://x".toList = [] := by
  constructor <;> decide

/-- **C6 (amended).** For every raw input accepted by the service boundary
validation whose lowercased text contains no `http` substring, no `www`
substring and no `@` character, the normalized text passed to the
sentiment source and the scoring functions is non-empty. -/
theorem spec_c6 (t : List Char)
    (hacc : validate_request (some (some t)) = .accepted)
    (hhttp : hasSub httpL (t.map lowerChar) = false)
    (hwww : hasSub wwwL (t.map lowerChar) = false)
    (hat : '@' ∉ t.map lowerChar) :
    preprocess_text t ≠ [] := by
  have hstrip : (stripChars t).isEmpty = false := by
    cases hx : (stripChars t).isEmpty
    · rfl
    · exfalso
      have hcond : (t.isEmpty || (stripChars t).isEmpty) = true := by
        rw [hx, Bool.or_true]
      rw [show validate_request (some (some t)) =
          (if (t.isEmpty || (stripChars t).isEmpty) = true then ValidationOutcome.emptyText
            else if 5000 < t.length then ValidationOutcome.tooLong
            else ValidationOutcome.accepted) from rfl, if_pos hcond] at hacc
      exact ValidationOutcome.noConfusion hacc
  have hex : ∃ c ∈ t, isSpace c = false := by
    by_contra hno
    push_neg at hno
    have hall : ∀ c ∈ t, isSpace c = true := by
      intro c hc
      cases hx : isSpace c
      · exact absurd hx (hno c hc)
      · rfl
    rw [stripChars_eq_nil_of_all_space hall] at hstrip
    simp at hstrip
  obtain ⟨c, hct, hcns⟩ := hex
  have hcx : lowerChar c ∈ t.map lowerChar := List.mem_map_of_mem _ hct
  have hcxns : isSpace (lowerChar c) = false := by rw [isSpace_lowerChar]; exact hcns
  have hU : ∀ n, urlMatchAt ((t.map lowerChar).drop n) = false := by
    intro n
    cases hx : urlMatchAt ((t.map lowerChar).drop n)
    · rfl
    · exfalso
      rcases urlMatchAt_imp hx with h' | h'
      · rw [hasSub_false (by decide) hhttp n] at h'
        exact Bool.false_ne_true h'
      · rw [hasSub_false (by decide) hwww n] at h'
        exact Bool.false_ne_true h'
  have hE : ∀ n, emailMatchAt ((t.map lowerChar).drop n) = false := by
    intro n
    cases hx : emailMatchAt ((t.map lowerChar).drop n)
    · rfl
    · exact absurd (List.drop_subset _ _ (emailMatchAt_imp hx)) hat
  unfold preprocess_text urlGo emailGo
  rw [subGo_id urlMatchAt hU, subGo_id emailMatchAt hE, strip_sq_eq_joinToks]
  have htk : tokens (t.map lowerChar) ≠ [] := tokens_ne_nil ⟨lowerChar c, hcx, hcxns⟩
  obtain ⟨t0, ts0, htok⟩ : ∃ t0 ts0, tokens (t.map lowerChar) = t0 :: ts0 := by
    cases htoks : tokens (t.map lowerChar) with
    | nil => exact absurd htoks htk
    | cons a b => exact ⟨a, b, rfl⟩
  rw [htok]
  exact joinToks_ne_nil
    (mem_tokens_props (l := t.map lowerChar)
      (by rw [htok]; exact List.mem_cons_self _ _)).1 ts0

/-- Witness for the amended C6 at the input `"hello world"`. -/
theorem spec_c6_witness :
    validate_request (some (some "hello world".toList)) = .accepted ∧
      hasSub httpL (("hello world".toList).map lowerChar) = false ∧
      hasSub wwwL (("hello world".toList).map lowerChar) = false ∧
      '@' ∉ ("hello world".toList).map lowerChar ∧
      preprocess_text "hello world".toList ≠ [] :=
  ⟨by decide, by decide, by decide, by decide,
    spec_c6 _ (by decide) (by decide) (by decide) (by decide)⟩

end Bhavna
